import Mathlib

/-!
Verification of the hexagony-c interpreter core.

The repository carries two revisions of the interpreter: a stale copy at the
repository root (here suffixed `_v0`) and the maintained copy under `src/`
(unsuffixed).  Where the two revisions agree only one embedding is given.

Machine integers: `long` quantities (coordinates, ring counts, IP indices)
are embedded as `ℤ`; the memory-cell counter (`size_t`, always small and
non-negative here) as `ℕ`; the `int`-typed memory edges as `ℤ` with explicit
two's-complement wrapping `wrap32` where the dispatch arithmetic can
overflow.
-/

namespace Hexagony

/-- The three cubic axes, `enum axis { X, Y, Z }`. -/
inductive Axis : Type
  | X
  | Y
  | Z
deriving DecidableEq, Repr

/-- Numeric value of an `enum axis` constant. -/
def axisVal : Axis → ℤ
  | .X => 0
  | .Y => 1
  | .Z => 2

/-- Recover an `enum axis` from its numeric value (the code only ever stores
results of `modulo (_, 3)` back into the enum, so 0, 1, 2 are the live cases). -/
def axisOfVal : ℤ → Axis
  | 0 => .X
  | 1 => .Y
  | 2 => .Z
  | _ => .X

/-- The memory-pointer orientation, the anonymous `enum { IN, OUT }`. -/
inductive MPDir : Type
  | IN
  | OUT
deriving DecidableEq, Repr

/-- Neighbor selector, `enum neighbor { LEFT = -1, RIGHT = 1 }`. -/
inductive Neighbor : Type
  | LEFT
  | RIGHT
deriving DecidableEq, Repr

/-- Numeric value of an `enum neighbor` constant. -/
def neighborVal : Neighbor → ℤ
  | .LEFT => -1
  | .RIGHT => 1

/-- The `struct memory_pointer`: axial position, axis, and in/out orientation. -/
structure memory_pointer : Type where
  p : ℤ
  q : ℤ
  axis : Axis
  direction : MPDir
deriving DecidableEq, Repr

/-- The six IP facing directions, `enum direction`. -/
inductive Direction : Type
  | NW
  | NE
  | E
  | SE
  | SW
  | W
deriving DecidableEq, Repr

/-- The table `direction_offset`: axial `(dp, dq)` offsets for each hexagonal direction. -/
def direction_offset : Direction → ℤ × ℤ
  | .NW => (0, -1)
  | .NE => (-1, 0)
  | .E => (-1, 1)
  | .SE => (0, 1)
  | .SW => (1, 0)
  | .W => (1, -1)

/-- The function `long modulo(long a, long b)` — the source's "mathematical modulus":
`result = a % labs(b); return (result >= 0 ? result : result + b) * (b >= 0 ? 1 : -1);`
(C `%` on `long` is truncated remainder, embedded as `Int.tmod`). -/
def modulo (a b : ℤ) : ℤ :=
  let result := Int.tmod a |b|
  (if 0 ≤ result then result else result + b) * (if 0 ≤ b then 1 else -1)

/-- Centered hexagonal number `H(R) = 3R(R-1)+1` over `ℤ` (program grid size). -/
def hexnumZ (R : ℤ) : ℤ := 3 * R * (R - 1) + 1

/-- The function `ssize_t axial_to_index(long p, long q, long rings)`: row-major program
index along the z axis, or the sentinel `-1` outside the hexagon.  C's `/` on
signed operands truncates toward zero, embedded as `Int.tdiv` (both dividends
are even, so the division is exact). -/
def axial_to_index (p q rings : ℤ) : ℤ :=
  let x := p
  let y := q
  let z := -p - q
  if 2 * (rings - 1) < |x| + |y| + |z| then -1
  else
    (3 * rings * (rings - 1)).tdiv 2
      + (y + -z * (rings * 2 - 1))
      + (z * (|z| + 1)).tdiv 2

/-- The function `size_t axial_to_mem_index(long p, long q)`: radial (ring-major) index of
a memory cell.  The six `if`s of the source are embedded as six conditional
summands (the source accumulates them in sequence with `+=`). -/
def axial_to_mem_index (p q : ℤ) : ℕ :=
  let x := p
  let y := q
  let z := -p - q
  let ring : ℕ := (x.natAbs + y.natAbs + z.natAbs) / 2
  let base : ℕ := if 0 < ring then 3 * ring * (ring - 1) + 1 else 0
  base
    + (if x ≤ 0 ∧ y < 0 then ring * 0 + x.natAbs else 0)
    + (if 0 ≤ y ∧ 0 < z then ring * 1 + y.natAbs else 0)
    + (if z ≤ 0 ∧ x < 0 then ring * 2 + z.natAbs else 0)
    + (if 0 ≤ x ∧ 0 < y then ring * 3 + x.natAbs else 0)
    + (if y ≤ 0 ∧ z < 0 then ring * 4 + y.natAbs else 0)
    + (if 0 ≤ z ∧ 0 < x then ring * 5 + z.natAbs else 0)

/-- The rotated axis `modulo(ptr.axis + neighbor, 3)` used by `get_neighbor`
and `move_mp`. -/
def neighbor_axis (a : Axis) (n : Neighbor) : Axis :=
  axisOfVal (modulo (axisVal a + neighborVal n) 3)

/-- The function `void move_mp(struct memory_pointer *ptr, enum neighbor neighbor)`.
The source builds `long xyz[3]` from the cubic coordinates, bumps `xyz[axis]`
up and `xyz[neighbor_axis]` down when the orientation is `OUT`, and stores
`xyz[X], xyz[Y]` back into `p, q` (the `Z` entry is written but never read
back). -/
def move_mp (ptr : memory_pointer) (neighbor : Neighbor) : memory_pointer :=
  let na := neighbor_axis ptr.axis neighbor
  if ptr.direction = MPDir.OUT then
    let x := ptr.p + (if ptr.axis = Axis.X then 1 else 0)
      - (if na = Axis.X then 1 else 0)
    let y := ptr.q + (if ptr.axis = Axis.Y then 1 else 0)
      - (if na = Axis.Y then 1 else 0)
    { p := x, q := y, axis := na, direction := MPDir.IN }
  else
    { p := ptr.p, q := ptr.q, axis := na, direction := MPDir.OUT }

/-- Storage location (cell index, axis) addressed by
`get_memory_edge(ptr, ...) = &get_memory_cell(ptr.p, ptr.q, ...)->value[ptr.axis]`. -/
def get_memory_edge_loc (ptr : memory_pointer) : ℕ × Axis :=
  (axial_to_mem_index ptr.p ptr.q, ptr.axis)

/-- Storage location (cell index, axis) addressed by
`get_neighbor(ptr, neighbor, ...)`: when the orientation is `OUT` the cell is
shifted `+1` along `ptr.axis` and `-1` along the rotated axis, and the value
read is `value[modulo(ptr.axis + neighbor, 3)]`. -/
def get_neighbor_loc (ptr : memory_pointer) (neighbor : Neighbor) : ℕ × Axis :=
  let na := neighbor_axis ptr.axis neighbor
  let x := ptr.p + (if ptr.direction = MPDir.OUT then
    (if ptr.axis = Axis.X then 1 else 0) - (if na = Axis.X then 1 else 0) else 0)
  let y := ptr.q + (if ptr.direction = MPDir.OUT then
    (if ptr.axis = Axis.Y then 1 else 0) - (if na = Axis.Y then 1 else 0) else 0)
  (axial_to_mem_index x y, na)

/-- The `=` instruction: `MP.direction = MP.direction == IN ? OUT : IN`. -/
def toggle_direction (ptr : memory_pointer) : memory_pointer :=
  { ptr with direction := if ptr.direction = MPDir.IN then MPDir.OUT else MPDir.IN }

/-- The `"` instruction (move backwards-left), executed in the source as
toggle, `move_mp(&MP, RIGHT)`, toggle — "equivalent to =}=". -/
def exec_dquote (ptr : memory_pointer) : memory_pointer :=
  toggle_direction (move_mp (toggle_direction ptr) Neighbor.RIGHT)

/-- The `'` instruction (move backwards-right), executed in the source as
toggle, `move_mp(&MP, LEFT)`, toggle — "equivalent to ={=". -/
def exec_squote (ptr : memory_pointer) : memory_pointer :=
  toggle_direction (move_mp (toggle_direction ptr) Neighbor.LEFT)

/-- Two's-complement wrap of a value into the range of a 32-bit `int`
(the type of memory edges). -/
def wrap32 (v : ℤ) : ℤ := (v + 2 ^ 31) % 2 ^ 32 - 2 ^ 31

/-- The memory store, abstracted as a total map from cell index and axis to
the edge value (cells the interpreter has not grown to yet read as the zero
values `realloc_memory` initialises them with). -/
def MemStore : Type := ℕ → Axis → ℤ

/-- Value of the edge addressed by `get_memory_edge(ptr, ...)`. -/
def readEdge (m : MemStore) (ptr : memory_pointer) : ℤ :=
  m (axial_to_mem_index ptr.p ptr.q) ptr.axis

/-- Store `v` through `get_memory_edge(ptr, ...)`, leaving every other
storage location unchanged. -/
def writeEdge (m : MemStore) (ptr : memory_pointer) (v : ℤ) : MemStore :=
  fun i a =>
    if i = axial_to_mem_index ptr.p ptr.q ∧ a = ptr.axis then v else m i a

/-- Digit dispatch of `src/hexagony.c`:
`*edge *= 10; *edge += (*edge < 0 ? -1 : 1) * (instruction->value - '0');`
with 32-bit wrapping on each write to `*edge`. -/
def exec_digit (m : MemStore) (ptr : memory_pointer) (d : ℤ) : MemStore :=
  let e1 := wrap32 (readEdge m ptr * 10)
  writeEdge m ptr (wrap32 (e1 + (if e1 < 0 then -1 else 1) * d))

/-- The `[` arm of the stale root-level `hexagony.c`:
`IP_index = modulo(IP_index + 1, 6)`. -/
def exec_lbracket_v0 (i : ℤ) : ℤ := modulo (i + 1) 6

/-- The `]` arm of the stale root-level `hexagony.c`:
`IP_index = modulo(IP_index - 1, 6)`. -/
def exec_rbracket_v0 (i : ℤ) : ℤ := modulo (i - 1) 6

/-- The `[` arm of `src/hexagony.c`: `IP_index = modulo(IP_index - 1, 6)`. -/
def exec_lbracket (i : ℤ) : ℤ := modulo (i - 1) 6

/-- The `]` arm of `src/hexagony.c`: `IP_index = modulo(IP_index + 1, 6)`. -/
def exec_rbracket (i : ℤ) : ℤ := modulo (i + 1) 6

/-- The `#` arm of the stale root-level `hexagony.c`: it has no `break`, so
after `IP_index = modulo(*edge, 6)` control falls through into the `{` arm
and also executes `move_mp(&MP, LEFT)`.  Result: (new IP index, new MP). -/
def exec_hash_v0 (e : ℤ) (ptr : memory_pointer) : ℤ × memory_pointer :=
  (modulo e 6, move_mp ptr Neighbor.LEFT)

/-- The `#` arm of `src/hexagony.c`: `IP_index = modulo(*edge, 6); break;`,
leaving the memory pointer untouched. -/
def exec_hash (e : ℤ) (ptr : memory_pointer) : ℤ × memory_pointer :=
  (modulo e 6, ptr)

/-- Initial memory pointer of the stale root-level `hexagony.c`:
`struct memory_pointer MP = {0, 0, Z, IN};`. -/
def initial_MP_v0 : memory_pointer := ⟨0, 0, Axis.Z, MPDir.IN⟩

/-- Initial memory pointer of `src/hexagony.c`:
`struct memory_pointer MP = {0, 0, Z, OUT};`. -/
def initial_MP : memory_pointer := ⟨0, 0, Axis.Z, MPDir.OUT⟩

/-- The boundary-reflection axis selection cascade of the executor, with
`none` for the case in which no branch assigns `reflection` (which would be
an uninitialized read in the source). `e` is the current memory edge. -/
def reflection_axis (e np nq : ℤ) : Option Axis :=
  let nr := -np - nq
  if np = 0 then some (if 0 < e then Axis.Y else Axis.Z)
  else if nq = 0 then some (if 0 < e then Axis.Z else Axis.X)
  else if nr = 0 then some (if 0 < e then Axis.X else Axis.Y)
  else if 0 < nq * nr then some Axis.X
  else if 0 < nr * np then some Axis.Y
  else if 0 < np * nq then some Axis.Z
  else none

/-- Ring number of the memory cell holding radial index `n`: the unique `k`
with `H(k) ≤ n < H(k+1)` (where `H(0) = 0`, `H(k) = 3k(k-1)+1` for `k ≥ 1`),
computed as the least `k` with `n < 3k(k+1)+1`. -/
def memRingOf (n : ℕ) : ℕ :=
  Nat.find (show ∃ k, n < 3 * k * (k + 1) + 1 from
    ⟨n, by nlinarith [sq_nonneg n]⟩)

/-- Modelled from the spec: the axial coordinate of the cell at clockwise
offset `j` in sextant `s` of ring `k` (the ring-and-sextant recomposition of
§3 / §8 of the spec, clockwise from the corner `(0, -k)`). -/
def sextant_point (k s j : ℕ) : ℤ × ℤ :=
  if s = 0 then (-(j : ℤ), (j : ℤ) - k)
  else if s = 1 then (-(k : ℤ), (j : ℤ))
  else if s = 2 then ((j : ℤ) - k, (k : ℤ))
  else if s = 3 then ((j : ℤ), (k : ℤ) - j)
  else if s = 4 then ((k : ℤ), -(j : ℤ))
  else ((k : ℤ) - j, -(k : ℤ))

/-- Modelled from the spec: invert `axial_to_mem_index` by decomposing a
radial index into its ring number and within-ring sextant offset. -/
def mem_decode (n : ℕ) : ℤ × ℤ :=
  if n = 0 then (0, 0)
  else
    let k := memRingOf n
    let t := n - (3 * k * (k - 1) + 1)
    sextant_point k (t / k) (t % k)

/-! ## Helper lemmas -/

/-- Truncated remainder negates with its dividend. -/
theorem tmod_neg_left (a b : ℤ) : (-a).tmod b = -(a.tmod b) := by
  rw [Int.tmod_def, Int.tmod_def, Int.neg_tdiv]
  ring

/-- The rotated axis, tabulated on the six concrete inputs. -/
theorem neighbor_axis_eq (a : Axis) (n : Neighbor) :
    neighbor_axis a n = match a, n with
      | Axis.X, Neighbor.LEFT => Axis.Z
      | Axis.X, Neighbor.RIGHT => Axis.Y
      | Axis.Y, Neighbor.LEFT => Axis.X
      | Axis.Y, Neighbor.RIGHT => Axis.Z
      | Axis.Z, Neighbor.LEFT => Axis.Y
      | Axis.Z, Neighbor.RIGHT => Axis.X := by
  cases a <;> cases n <;> decide

/-! ## Claim theorems -/

/-- C9: for every integer `a` and every `b > 0`, `modulo(a, b)` returns a
value in `0..b-1` that is congruent to `a` modulo `b`. -/
theorem modulo_spec (a b : ℤ) (hb : 0 < b) :
    0 ≤ modulo a b ∧ modulo a b < b ∧ b ∣ a - modulo a b := by
  have habs : |b| = b := abs_of_pos hb
  have hlt : Int.tmod a b < b := Int.tmod_lt_of_pos a hb
  have hdvd : b ∣ a - Int.tmod a b :=
    ⟨a.tdiv b, by have h := Int.tmod_add_tdiv a b; linarith⟩
  have hgt : -b < Int.tmod a b := by
    rcases le_or_lt 0 a with ha | ha
    · have h := Int.tmod_nonneg b ha
      linarith
    · have h2 : (-a).tmod b = -(a.tmod b) := tmod_neg_left a b
      have h3 : (-a).tmod b < b := Int.tmod_lt_of_pos _ hb
      omega
  simp only [modulo, habs, if_pos hb.le, mul_one]
  split_ifs with h0
  · exact ⟨h0, hlt, hdvd⟩
  · refine ⟨by omega, by omega, ?_⟩
    have h4 : a - (Int.tmod a b + b) = (a - Int.tmod a b) - b := by ring
    rw [h4]
    exact dvd_sub hdvd dvd_rfl

/-- Witness for C9 at `a = -7`, `b = 3`. -/
theorem modulo_spec_witness :
    (0 : ℤ) < 3
      ∧ (0 ≤ modulo (-7) 3 ∧ modulo (-7) 3 < 3 ∧ (3 : ℤ) ∣ -7 - modulo (-7) 3) :=
  ⟨by decide, modulo_spec (-7) 3 (by decide)⟩

/-- C1: the stale root-level `hexagony.c` computes `[` as `(active + 1) mod 6`
and `]` as `(active - 1) mod 6`, contradicting its own comments ("switches to
the previous IP" / "next IP"), the spec, and the maintained `src/hexagony.c`,
which computes `[` as `(active - 1) mod 6` and `]` as `(active + 1) mod 6`
exactly as the claim states; evaluated at active index 0 and 5. -/
theorem lbracket_rbracket_v0_swapped :
    exec_lbracket_v0 0 = 1 ∧ exec_rbracket_v0 0 = 5
      ∧ exec_lbracket 0 = 5 ∧ exec_rbracket 0 = 1
      ∧ exec_lbracket 5 = 4 ∧ exec_rbracket 5 = 0 := by decide

/-- C3: in the maintained `src/hexagony.c`, `#` sets the active IP index to
`(current edge) mod 6` and leaves the memory pointer untouched; in the stale
root-level copy the missing `break` falls through into `{` and moves the
memory pointer to its left neighbour, so the claim fails there.  Evaluated at
edge value 7 and the initial memory pointer. -/
theorem hash_preserves_MP :
    (exec_hash 7 initial_MP).1 = 1 ∧ (exec_hash 7 initial_MP).2 = initial_MP
      ∧ (exec_hash_v0 7 initial_MP).1 = 1
      ∧ (exec_hash_v0 7 initial_MP).2 ≠ initial_MP := by decide

/-- C4: the maintained `src/hexagony.c` starts the memory pointer at
`(0, 0, Z, OUT)` as the claim states; the stale root-level copy starts it at
`(0, 0, Z, IN)`, contradicting the claim. -/
theorem initial_MP_state :
    initial_MP = ⟨0, 0, Axis.Z, MPDir.OUT⟩
      ∧ initial_MP_v0 = ⟨0, 0, Axis.Z, MPDir.IN⟩
      ∧ initial_MP_v0 ≠ initial_MP := by decide

/-- C8 counterexample: from the memory-pointer state `(0, 0, Z, OUT)`, moving
LEFT and then RIGHT lands on `(0, -1, Z, OUT)`, not back on the original
state. -/
theorem move_left_right_not_inverse :
    move_mp (move_mp ⟨0, 0, Axis.Z, MPDir.OUT⟩ Neighbor.LEFT) Neighbor.RIGHT
      ≠ ⟨0, 0, Axis.Z, MPDir.OUT⟩ := by decide

/-- C8 amended: for every memory-pointer state, `move_mp LEFT` is undone by
the `"` instruction (toggle orientation, `move_mp RIGHT`, toggle
orientation), and `move_mp RIGHT` is undone by the `'` instruction (toggle,
`move_mp LEFT`, toggle), exactly as the source's own comments state
(`"` is `=}=` and `'` is `={=`). -/
theorem move_mp_backwards_inverse (ptr : memory_pointer) :
    exec_dquote (move_mp ptr Neighbor.LEFT) = ptr
      ∧ exec_squote (move_mp ptr Neighbor.RIGHT) = ptr := by
  obtain ⟨p, q, a, d⟩ := ptr
  cases a <;> cases d <;>
    simp [exec_dquote, exec_squote, move_mp, toggle_direction, neighbor_axis_eq]

/-- C10: the storage location (memory-cell index, axis) addressed by
`get_neighbor(MP, side)` is exactly the location addressed by
`get_memory_edge` after `move_mp(MP, side)`. -/
theorem get_neighbor_loc_eq_move (ptr : memory_pointer) (n : Neighbor) :
    get_neighbor_loc ptr n = get_memory_edge_loc (move_mp ptr n) := by
  obtain ⟨p, q, a, d⟩ := ptr
  cases a <;> cases d <;> cases n <;>
    simp [get_neighbor_loc, get_memory_edge_loc, move_mp, neighbor_axis_eq,
      sub_eq_add_neg]

/-- One of the six cascade conditions always matches: for any tentative
position the reflection axis is assigned. -/
theorem reflection_axis_isSome (e np nq : ℤ) :
    (reflection_axis e np nq).isSome := by
  unfold reflection_axis
  by_cases h1 : np = 0
  · simp [h1]
  by_cases h2 : nq = 0
  · simp [h1, h2]
  by_cases h3 : -np - nq = 0
  · simp [h1, h2, h3]
  by_cases h4 : 0 < nq * (-np - nq)
  · simp [h1, h2, h3, h4]
  by_cases h5 : 0 < (-np - nq) * np
  · simp [h1, h2, h3, h4, h5]
  by_cases h6 : 0 < np * nq
  · simp [h1, h2, h3, h4, h5, h6]
  exfalso
  rcases lt_trichotomy np 0 with ha | ha | ha
  · rcases lt_trichotomy nq 0 with hb | hb | hb
    · exact h6 (mul_pos_of_neg_of_neg ha hb)
    · exact h2 hb
    · rcases lt_trichotomy (-np - nq) 0 with hc | hc | hc
      · exact h5 (mul_pos_of_neg_of_neg hc ha)
      · exact h3 hc
      · exact h4 (mul_pos hb hc)
  · exact h1 ha
  · rcases lt_trichotomy nq 0 with hb | hb | hb
    · rcases lt_trichotomy (-np - nq) 0 with hc | hc | hc
      · exact h4 (mul_pos_of_neg_of_neg hb hc)
      · exact h3 hc
      · exact h5 (mul_pos hc ha)
    · exact h2 hb
    · exact h6 (mul_pos ha hb)

/-- C5: for every IP position inside the program hexagon and every facing
direction, if the tentative next position leaves the hexagon then at least
one of the six axis-selection conditions holds, so `reflection` is always
assigned and the uninitialized-read branch is unreachable. -/
theorem reflection_axis_assigned (p q R e : ℤ) (d : Direction)
    (hin : |p| + |q| + |p + q| ≤ 2 * (R - 1))
    (hout : 2 * R ≤ |p + (direction_offset d).1| + |q + (direction_offset d).2|
      + |-(p + (direction_offset d).1) - (q + (direction_offset d).2)|) :
    (reflection_axis e (p + (direction_offset d).1)
      (q + (direction_offset d).2)).isSome :=
  reflection_axis_isSome e _ _

/-- Witness for C5: position `(0, 0)` in a 1-ring program, facing E, edge 0;
the step to `(-1, 1)` leaves the hexagon and the cascade assigns an axis. -/
theorem reflection_axis_assigned_witness :
    (|(0 : ℤ)| + |(0 : ℤ)| + |(0 : ℤ) + 0| ≤ 2 * (1 - 1)
        ∧ 2 * 1 ≤ |(0 : ℤ) + (direction_offset Direction.E).1|
          + |(0 : ℤ) + (direction_offset Direction.E).2|
          + |-((0 : ℤ) + (direction_offset Direction.E).1)
            - ((0 : ℤ) + (direction_offset Direction.E).2)|)
      ∧ (reflection_axis 0 ((0 : ℤ) + (direction_offset Direction.E).1)
        ((0 : ℤ) + (direction_offset Direction.E).2)).isSome :=
  ⟨⟨by decide, by decide⟩,
    reflection_axis_assigned 0 0 1 0 Direction.E (by decide) (by decide)⟩

/-- C2 counterexample: with the current edge holding 300000000 and digit 1,
the code stores `wrap32(3000000000) - 1 = -1294967297` (the sign test runs on
the already-wrapped product, which is negative), while the claim's formula
`e * 10 + (e < 0 ? -d : +d)` wraps to `-1294967295`. -/
theorem exec_digit_claim_false :
    readEdge (exec_digit (fun _ _ => 300000000) initial_MP 1) initial_MP
      ≠ wrap32 ((300000000 : ℤ) * 10
        + (if (300000000 : ℤ) < 0 then -1 else 1)) := by decide

/-- C2 amended: executing digit `d` sets the current edge to
`e1 + (e1 < 0 ? -d : +d)` where `e1` is the 32-bit wrap of `e * 10` (the sign
test is on the wrapped product, not on the old edge `e`), with wrapping
arithmetic, and leaves every other storage location unchanged.  (Stated for
all integers `d`, which subsumes the digits 0..9.) -/
theorem exec_digit_spec (m : MemStore) (ptr : memory_pointer) (d : ℤ) :
    readEdge (exec_digit m ptr d) ptr
        = wrap32 (wrap32 (readEdge m ptr * 10)
          + (if wrap32 (readEdge m ptr * 10) < 0 then -d else d))
      ∧ ∀ i a, ¬(i = axial_to_mem_index ptr.p ptr.q ∧ a = ptr.axis) →
          exec_digit m ptr d i a = m i a := by
  constructor
  · simp only [exec_digit, readEdge, writeEdge, and_self, if_true]
    split_ifs <;> ring_nf
  · intro i a h
    simp only [exec_digit, writeEdge, h, if_false]

/-- Outside the hexagon the program index is the sentinel `-1`. -/
theorem axial_to_index_outside (p q R : ℤ)
    (h : 2 * (R - 1) < |p| + |q| + |p + q|) : axial_to_index p q R = -1 := by
  have hz : |-p - q| = |p + q| := by
    rw [show -p - q = -(p + q) by ring, abs_neg]
  simp only [axial_to_index]
  rw [if_pos (by rw [hz]; exact h)]

/-- Inside the hexagon the program index lies in `0 .. 3R(R-1)`. -/
theorem axial_to_index_inside (p q R : ℤ)
    (h : |p| + |q| + |p + q| ≤ 2 * (R - 1)) :
    0 ≤ axial_to_index p q R ∧ axial_to_index p q R ≤ 3 * R * (R - 1) := by
  have hz : |-p - q| = |p + q| := by
    rw [show -p - q = -(p + q) by ring, abs_neg]
  have habs : ∀ u v : ℤ, |u| ≤ |u + v| + |v| := fun u v => by
    have t := abs_add (u + v) (-v)
    simp only [add_neg_cancel_right, abs_neg] at t
    exact t
  have hpq : |p + q| ≤ |p| + |q| := abs_add p q
  have hp1 : |p| ≤ |p + q| + |q| := habs p q
  have hq1 : |q| ≤ |q + p| + |p| := habs q p
  rw [add_comm q p] at hq1
  have hpb : |p| ≤ R - 1 := by linarith
  have hqb : |q| ≤ R - 1 := by linarith
  have hsb : |p + q| ≤ R - 1 := by linarith
  obtain ⟨hpl, hpr⟩ := abs_le.mp hpb
  obtain ⟨hql, hqr⟩ := abs_le.mp hqb
  obtain ⟨hsl, hsr⟩ := abs_le.mp hsb
  have he1 : Even ((R - 1) * R) := by
    have t := Int.even_mul_succ_self (R - 1)
    simpa using t
  obtain ⟨c, hc⟩ := he1
  have hd1 : (3 * R * (R - 1)).tdiv 2 = 3 * c := by
    rw [show 3 * R * (R - 1) = 2 * (3 * c) by
      rw [show 3 * R * (R - 1) = 3 * ((R - 1) * R) by ring, hc]; ring]
    exact Int.mul_tdiv_cancel_left _ (by norm_num)
  simp only [axial_to_index]
  rw [if_neg (by rw [hz]; exact not_lt.2 h), hd1]
  have hzl : -(R - 1) ≤ -p - q := by linarith
  have hzr : -p - q ≤ R - 1 := by linarith
  rcases le_or_lt 0 (-p - q) with hz0 | hz0
  · have habsz : |-p - q| = -p - q := abs_of_nonneg hz0
    obtain ⟨w, hw⟩ := Int.even_mul_succ_self (-p - q)
    have hd2 : ((-p - q) * (|-p - q| + 1)).tdiv 2 = w := by
      rw [habsz, show (-p - q) * (-p - q + 1) = 2 * w by
        rw [hw]; ring]
      exact Int.mul_tdiv_cancel_left _ (by norm_num)
    rw [hd2]
    constructor
    · nlinarith [hc, hw, mul_nonneg (show (0:ℤ) ≤ R - 1 - (-p - q) by linarith)
        (show (0:ℤ) ≤ 3 * (R - 1) + 1 - (-p - q) by linarith)]
    · nlinarith [hc, hw, mul_nonneg hz0 (show (0:ℤ) ≤ R - 1 - (-p - q) by linarith),
        mul_nonneg (show (0:ℤ) ≤ 3 * R - 2 by linarith)
          (show (0:ℤ) ≤ R - 1 by linarith),
        mul_nonneg hz0 (show (0:ℤ) ≤ R by linarith)]
  · have habsz : |-p - q| = -(-p - q) := abs_of_neg hz0
    obtain ⟨w, hw⟩ := Int.even_mul_succ_self (-p - q - 1)
    have hd2 : ((-p - q) * (|-p - q| + 1)).tdiv 2 = -w := by
      rw [habsz, show (-p - q) * (-(-p - q) + 1) = 2 * -w by
        have t : (-p - q - 1) * (-p - q - 1 + 1) = w + w := hw
        nlinarith [t]]
      exact Int.mul_tdiv_cancel_left _ (by norm_num)
    rw [hd2]
    constructor
    · nlinarith [hc, hw, mul_nonneg (show (0:ℤ) ≤ -(-p - q) by linarith)
        (show (0:ℤ) ≤ 4 * R - 1 + (-p - q) by linarith),
        mul_nonneg (show (0:ℤ) ≤ 3 * R - 2 by linarith)
          (show (0:ℤ) ≤ R - 1 by linarith)]
    · nlinarith [hc, hw, mul_nonneg (show (0:ℤ) ≤ (-p - q) + R - 1 by linarith)
        (show (0:ℤ) ≤ (-p - q) + 3 * R - 2 by linarith)]

/-- C6: for every axial `(p, q)` and ring count `R ≥ 1`, the program index
`axial_to_index p q R` lies in `0 .. H(R)-1` if and only if
`|p| + |q| + |p+q| ≤ 2(R-1)`; outside that bound the sentinel `-1` is
returned. -/
theorem axial_to_index_spec (p q R : ℤ) (hR : 1 ≤ R) :
    ((0 ≤ axial_to_index p q R ∧ axial_to_index p q R < hexnumZ R)
        ↔ |p| + |q| + |p + q| ≤ 2 * (R - 1))
      ∧ (2 * (R - 1) < |p| + |q| + |p + q| → axial_to_index p q R = -1) := by
  refine ⟨⟨?_, ?_⟩, axial_to_index_outside p q R⟩
  · intro hiv
    by_contra hgt
    push_neg at hgt
    rw [axial_to_index_outside p q R hgt] at hiv
    exact absurd hiv.1 (by norm_num)
  · intro hbound
    obtain ⟨h0, h1⟩ := axial_to_index_inside p q R hbound
    exact ⟨h0, by unfold hexnumZ; linarith⟩

/-- Witness for C6 at `(p, q) = (1, 0)`, `R = 2`. -/
theorem axial_to_index_spec_witness :
    (1 : ℤ) ≤ 2
      ∧ (((0 ≤ axial_to_index 1 0 2 ∧ axial_to_index 1 0 2 < hexnumZ 2)
          ↔ |(1 : ℤ)| + |(0 : ℤ)| + |(1 : ℤ) + 0| ≤ 2 * (2 - 1))
        ∧ (2 * (2 - 1) < |(1 : ℤ)| + |(0 : ℤ)| + |(1 : ℤ) + 0|
          → axial_to_index 1 0 2 = -1)) :=
  ⟨by decide, axial_to_index_spec 1 0 2 (by decide)⟩

/-- The map `axial_to_mem_index` with the ring number supplied as a parameter (the
cubic Manhattan distance of every axial coordinate is even, so `hk` fixes the
ring). -/
theorem axial_to_mem_index_char (p q : ℤ) (k : ℕ)
    (hk : p.natAbs + q.natAbs + (-p - q).natAbs = 2 * k) :
    axial_to_mem_index p q
      = (if 0 < k then 3 * k * (k - 1) + 1 else 0)
        + (if p ≤ 0 ∧ q < 0 then k * 0 + p.natAbs else 0)
        + (if 0 ≤ q ∧ 0 < -p - q then k * 1 + q.natAbs else 0)
        + (if -p - q ≤ 0 ∧ p < 0 then k * 2 + (-p - q).natAbs else 0)
        + (if 0 ≤ p ∧ 0 < q then k * 3 + p.natAbs else 0)
        + (if q ≤ 0 ∧ -p - q < 0 then k * 4 + q.natAbs else 0)
        + (if 0 ≤ -p - q ∧ 0 < p then k * 5 + (-p - q).natAbs else 0) := by
  simp only [axial_to_mem_index]
  have hr : (p.natAbs + q.natAbs + (-p - q).natAbs) / 2 = k := by omega
  rw [hr]

/-- Ring `k`, sextant 0 (the cells `(-j, j-k)` for `0 ≤ j < k`). -/
theorem encode_sextant0 (k j : ℕ) (hj : j < k) :
    axial_to_mem_index (-(j : ℤ)) ((j : ℤ) - k) = 3 * k * (k - 1) + 1 + j := by
  rw [axial_to_mem_index_char (-(j : ℤ)) ((j : ℤ) - k) k (by omega)]
  split_ifs <;> omega

/-- Ring `k`, sextant 1 (the cells `(-k, j)` for `0 ≤ j < k`). -/
theorem encode_sextant1 (k j : ℕ) (hj : j < k) :
    axial_to_mem_index (-(k : ℤ)) (j : ℤ) = 3 * k * (k - 1) + 1 + (k + j) := by
  rw [axial_to_mem_index_char (-(k : ℤ)) (j : ℤ) k (by omega)]
  split_ifs <;> omega

/-- Ring `k`, sextant 2 (the cells `(j-k, k)` for `0 ≤ j < k`). -/
theorem encode_sextant2 (k j : ℕ) (hj : j < k) :
    axial_to_mem_index ((j : ℤ) - k) (k : ℤ) = 3 * k * (k - 1) + 1 + (2 * k + j) := by
  rw [axial_to_mem_index_char ((j : ℤ) - k) (k : ℤ) k (by omega)]
  split_ifs <;> omega

/-- Ring `k`, sextant 3 (the cells `(j, k-j)` for `0 ≤ j < k`). -/
theorem encode_sextant3 (k j : ℕ) (hj : j < k) :
    axial_to_mem_index (j : ℤ) ((k : ℤ) - j) = 3 * k * (k - 1) + 1 + (3 * k + j) := by
  rw [axial_to_mem_index_char (j : ℤ) ((k : ℤ) - j) k (by omega)]
  split_ifs <;> omega

/-- Ring `k`, sextant 4 (the cells `(k, -j)` for `0 ≤ j < k`). -/
theorem encode_sextant4 (k j : ℕ) (hj : j < k) :
    axial_to_mem_index (k : ℤ) (-(j : ℤ)) = 3 * k * (k - 1) + 1 + (4 * k + j) := by
  rw [axial_to_mem_index_char (k : ℤ) (-(j : ℤ)) k (by omega)]
  split_ifs <;> omega

/-- Ring `k`, sextant 5 (the cells `(k-j, -k)` for `0 ≤ j < k`). -/
theorem encode_sextant5 (k j : ℕ) (hj : j < k) :
    axial_to_mem_index ((k : ℤ) - j) (-(k : ℤ)) = 3 * k * (k - 1) + 1 + (5 * k + j) := by
  rw [axial_to_mem_index_char ((k : ℤ) - j) (-(k : ℤ)) k (by omega)]
  split_ifs <;> omega

/-- The ring finder recovers `k` on every index of ring `k`. -/
theorem memRingOf_eq (k t : ℕ) (hk : 1 ≤ k) (ht : t < 6 * k) :
    memRingOf (3 * k * (k - 1) + 1 + t) = k := by
  obtain ⟨k1, rfl⟩ : ∃ k1, k = k1 + 1 := ⟨k - 1, by omega⟩
  have hsub : 3 * (k1 + 1) * ((k1 + 1) - 1) = 3 * (k1 + 1) * k1 := by
    simp
  unfold memRingOf
  rw [Nat.find_eq_iff]
  constructor
  · rw [hsub]
    nlinarith [ht]
  · intro m hm
    simp only [not_lt]
    rw [hsub]
    nlinarith [Nat.mul_le_mul (show m ≤ k1 by omega) (show m + 1 ≤ k1 + 1 by omega)]

/-- Decoding the index of offset `s*k + j` in ring `k` yields the sextant
point. -/
theorem decode_encode (k s j : ℕ) (hk : 1 ≤ k) (hs : s < 6) (hj : j < k) :
    mem_decode (3 * k * (k - 1) + 1 + (s * k + j)) = sextant_point k s j := by
  have hn0 : ¬(3 * k * (k - 1) + 1 + (s * k + j) = 0) := by omega
  simp only [mem_decode]
  rw [if_neg hn0]
  have hr : memRingOf (3 * k * (k - 1) + 1 + (s * k + j)) = k :=
    memRingOf_eq k (s * k + j) hk (by nlinarith)
  rw [hr]
  have htt : 3 * k * (k - 1) + 1 + (s * k + j) - (3 * k * (k - 1) + 1)
      = s * k + j := by omega
  rw [htt]
  have hdiv : (s * k + j) / k = s := by
    rw [mul_comm, Nat.mul_add_div (by omega), Nat.div_eq_of_lt hj]
    omega
  have hmod : (s * k + j) % k = j := by
    rw [mul_comm, Nat.mul_add_mod]
    exact Nat.mod_eq_of_lt hj
  rw [hdiv, hmod]
/-- Round trip on sextant 0 (`p ≤ 0`, `q < 0`). -/
theorem mem_roundtrip_region0 (p q : ℤ) (hp : p ≤ 0) (hq : q < 0) :
    mem_decode (axial_to_mem_index p q) = (p, q) := by
  obtain ⟨k, hk⟩ : ∃ k : ℕ, (k : ℤ) = -p - q :=
    ⟨(-p - q).toNat, Int.toNat_of_nonneg (by omega)⟩
  obtain ⟨j, hj⟩ : ∃ j : ℕ, (j : ℤ) = -p :=
    ⟨(-p).toNat, Int.toNat_of_nonneg (by omega)⟩
  have hjk : j < k := by omega
  have hp2 : p = -(j : ℤ) := by omega
  have hq2 : q = (j : ℤ) - k := by omega
  rw [hp2, hq2]
  have hidx : axial_to_mem_index (-(j : ℤ)) ((j : ℤ) - k)
      = 3 * k * (k - 1) + 1 + (0 * k + j) := by
    rw [encode_sextant0 k j hjk]
    omega
  rw [hidx, decode_encode k 0 j (by omega) (by omega) hjk]
  norm_num [sextant_point]

/-- Round trip on sextant 1 (`0 ≤ q`, `0 < -p - q`). -/
theorem mem_roundtrip_region1 (p q : ℤ) (hq : 0 ≤ q) (hz : 0 < -p - q) :
    mem_decode (axial_to_mem_index p q) = (p, q) := by
  obtain ⟨k, hk⟩ : ∃ k : ℕ, (k : ℤ) = -p :=
    ⟨(-p).toNat, Int.toNat_of_nonneg (by omega)⟩
  obtain ⟨j, hj⟩ : ∃ j : ℕ, (j : ℤ) = q :=
    ⟨q.toNat, Int.toNat_of_nonneg (by omega)⟩
  have hjk : j < k := by omega
  have hp2 : p = -(k : ℤ) := by omega
  have hq2 : q = (j : ℤ) := by omega
  rw [hp2, hq2]
  have hidx : axial_to_mem_index (-(k : ℤ)) (j : ℤ)
      = 3 * k * (k - 1) + 1 + (1 * k + j) := by
    rw [encode_sextant1 k j hjk]
    omega
  rw [hidx, decode_encode k 1 j (by omega) (by omega) hjk]
  norm_num [sextant_point]

/-- Round trip on sextant 2 (`-p - q ≤ 0`, `p < 0`). -/
theorem mem_roundtrip_region2 (p q : ℤ) (hz : -p - q ≤ 0) (hp : p < 0) :
    mem_decode (axial_to_mem_index p q) = (p, q) := by
  obtain ⟨k, hk⟩ : ∃ k : ℕ, (k : ℤ) = q :=
    ⟨q.toNat, Int.toNat_of_nonneg (by omega)⟩
  obtain ⟨j, hj⟩ : ∃ j : ℕ, (j : ℤ) = p + q :=
    ⟨(p + q).toNat, Int.toNat_of_nonneg (by omega)⟩
  have hjk : j < k := by omega
  have hp2 : p = (j : ℤ) - k := by omega
  have hq2 : q = (k : ℤ) := by omega
  rw [hp2, hq2]
  have hidx : axial_to_mem_index ((j : ℤ) - k) (k : ℤ)
      = 3 * k * (k - 1) + 1 + (2 * k + j) := by
    rw [encode_sextant2 k j hjk]
  rw [hidx, decode_encode k 2 j (by omega) (by omega) hjk]
  norm_num [sextant_point]

/-- Round trip on sextant 3 (`0 ≤ p`, `0 < q`). -/
theorem mem_roundtrip_region3 (p q : ℤ) (hp : 0 ≤ p) (hq : 0 < q) :
    mem_decode (axial_to_mem_index p q) = (p, q) := by
  obtain ⟨k, hk⟩ : ∃ k : ℕ, (k : ℤ) = p + q :=
    ⟨(p + q).toNat, Int.toNat_of_nonneg (by omega)⟩
  obtain ⟨j, hj⟩ : ∃ j : ℕ, (j : ℤ) = p :=
    ⟨p.toNat, Int.toNat_of_nonneg (by omega)⟩
  have hjk : j < k := by omega
  have hp2 : p = (j : ℤ) := by omega
  have hq2 : q = (k : ℤ) - j := by omega
  rw [hp2, hq2]
  have hidx : axial_to_mem_index (j : ℤ) ((k : ℤ) - j)
      = 3 * k * (k - 1) + 1 + (3 * k + j) := by
    rw [encode_sextant3 k j hjk]
  rw [hidx, decode_encode k 3 j (by omega) (by omega) hjk]
  norm_num [sextant_point]

/-- Round trip on sextant 4 (`q ≤ 0`, `-p - q < 0`). -/
theorem mem_roundtrip_region4 (p q : ℤ) (hq : q ≤ 0) (hz : -p - q < 0) :
    mem_decode (axial_to_mem_index p q) = (p, q) := by
  obtain ⟨k, hk⟩ : ∃ k : ℕ, (k : ℤ) = p :=
    ⟨p.toNat, Int.toNat_of_nonneg (by omega)⟩
  obtain ⟨j, hj⟩ : ∃ j : ℕ, (j : ℤ) = -q :=
    ⟨(-q).toNat, Int.toNat_of_nonneg (by omega)⟩
  have hjk : j < k := by omega
  have hp2 : p = (k : ℤ) := by omega
  have hq2 : q = -(j : ℤ) := by omega
  rw [hp2, hq2]
  have hidx : axial_to_mem_index (k : ℤ) (-(j : ℤ))
      = 3 * k * (k - 1) + 1 + (4 * k + j) := by
    rw [encode_sextant4 k j hjk]
  rw [hidx, decode_encode k 4 j (by omega) (by omega) hjk]
  norm_num [sextant_point]

/-- Round trip on sextant 5 (`0 ≤ -p - q`, `0 < p`). -/
theorem mem_roundtrip_region5 (p q : ℤ) (hz : 0 ≤ -p - q) (hp : 0 < p) :
    mem_decode (axial_to_mem_index p q) = (p, q) := by
  obtain ⟨k, hk⟩ : ∃ k : ℕ, (k : ℤ) = -q :=
    ⟨(-q).toNat, Int.toNat_of_nonneg (by omega)⟩
  obtain ⟨j, hj⟩ : ∃ j : ℕ, (j : ℤ) = -p - q :=
    ⟨(-p - q).toNat, Int.toNat_of_nonneg (by omega)⟩
  have hjk : j < k := by omega
  have hp2 : p = (k : ℤ) - j := by omega
  have hq2 : q = -(k : ℤ) := by omega
  rw [hp2, hq2]
  have hidx : axial_to_mem_index ((k : ℤ) - j) (-(k : ℤ))
      = 3 * k * (k - 1) + 1 + (5 * k + j) := by
    rw [encode_sextant5 k j hjk]
  rw [hidx, decode_encode k 5 j (by omega) (by omega) hjk]
  norm_num [sextant_point]

/-- Decoding after encoding is the identity on axial coordinates. -/
theorem mem_decode_encode (p q : ℤ) :
    mem_decode (axial_to_mem_index p q) = (p, q) := by
  by_cases h0 : p = 0 ∧ q = 0
  · obtain ⟨rfl, rfl⟩ := h0
    decide
  by_cases h1 : p ≤ 0 ∧ q < 0
  · exact mem_roundtrip_region0 p q h1.1 h1.2
  by_cases h2 : 0 ≤ q ∧ 0 < -p - q
  · exact mem_roundtrip_region1 p q h2.1 h2.2
  by_cases h3 : -p - q ≤ 0 ∧ p < 0
  · exact mem_roundtrip_region2 p q h3.1 h3.2
  by_cases h4 : 0 ≤ p ∧ 0 < q
  · exact mem_roundtrip_region3 p q h4.1 h4.2
  by_cases h5 : q ≤ 0 ∧ -p - q < 0
  · exact mem_roundtrip_region4 p q h5.1 h5.2
  by_cases h6 : 0 ≤ -p - q ∧ 0 < p
  · exact mem_roundtrip_region5 p q h6.1 h6.2
  exfalso
  omega

/-- Encoding after decoding is the identity on radial indices. -/
theorem mem_encode_decode (n : ℕ) :
    axial_to_mem_index (mem_decode n).1 (mem_decode n).2 = n := by
  by_cases h0 : n = 0
  · subst h0
    decide
  have hk1 : 1 ≤ memRingOf n := by
    by_contra hc
    have h00 : memRingOf n = 0 := by omega
    unfold memRingOf at h00
    rw [Nat.find_eq_iff] at h00
    omega
  obtain ⟨k1, hk⟩ : ∃ k1, memRingOf n = k1 + 1 := ⟨memRingOf n - 1, by omega⟩
  unfold memRingOf at hk
  rw [Nat.find_eq_iff] at hk
  obtain ⟨hub, hmin0⟩ := hk
  have hmin : 3 * k1 * (k1 + 1) + 1 ≤ n := by
    have hm := hmin0 k1 (by omega)
    omega
  have hcomm : 3 * (k1 + 1) * k1 = 3 * k1 * (k1 + 1) := by ring
  have hexp : 3 * (k1 + 1) * (k1 + 1 + 1) = 3 * (k1 + 1) * k1 + 6 * (k1 + 1) := by
    ring
  obtain ⟨t, ht⟩ : ∃ t, n = 3 * (k1 + 1) * k1 + 1 + t :=
    ⟨n - (3 * (k1 + 1) * k1 + 1), by omega⟩
  have ht6 : t < 6 * (k1 + 1) := by omega
  obtain ⟨s, j, hs, hj, hsj⟩ : ∃ s j, s < 6 ∧ j < k1 + 1 ∧ t = s * (k1 + 1) + j :=
    ⟨t / (k1 + 1), t % (k1 + 1),
      by rw [Nat.div_lt_iff_lt_mul (by omega)]; omega,
      Nat.mod_lt _ (by omega),
      by rw [mul_comm]; exact (Nat.div_add_mod t (k1 + 1)).symm⟩
  have hbridge : 3 * (k1 + 1) * ((k1 + 1) - 1) = 3 * (k1 + 1) * k1 := by simp
  have hidx : n = 3 * (k1 + 1) * ((k1 + 1) - 1) + 1 + (s * (k1 + 1) + j) := by
    omega
  rw [hidx, decode_encode (k1 + 1) s j (by omega) hs hj]
  interval_cases s
  · exact (encode_sextant0 (k1 + 1) j hj).trans (by omega)
  · exact (encode_sextant1 (k1 + 1) j hj).trans (by omega)
  · exact (encode_sextant2 (k1 + 1) j hj).trans (by omega)
  · exact (encode_sextant3 (k1 + 1) j hj).trans (by omega)
  · exact (encode_sextant4 (k1 + 1) j hj).trans (by omega)
  · exact (encode_sextant5 (k1 + 1) j hj).trans (by omega)

/-- C7: `axial_to_mem_index` is a bijection from axial coordinates to the
naturals, and the ring-and-sextant recomposition `mem_decode` inverts it in
both directions. -/
theorem axial_to_mem_index_bijection :
    Function.Bijective (fun c : ℤ × ℤ => axial_to_mem_index c.1 c.2)
      ∧ (∀ p q : ℤ, mem_decode (axial_to_mem_index p q) = (p, q))
      ∧ ∀ n : ℕ, axial_to_mem_index (mem_decode n).1 (mem_decode n).2 = n := by
  refine ⟨⟨?_, ?_⟩, mem_decode_encode, mem_encode_decode⟩
  · intro a b hab
    have hab2 : axial_to_mem_index a.1 a.2 = axial_to_mem_index b.1 b.2 := hab
    have ha := mem_decode_encode a.1 a.2
    have hb := mem_decode_encode b.1 b.2
    rw [hab2] at ha
    exact ha.symm.trans hb
  · intro n
    exact ⟨mem_decode n, mem_encode_decode n⟩

end Hexagony
